import Mathlib

/-!
Verification of the kailua_syntax parser (src/kailua_syntax/src/parser.rs).

Conventions used throughout this development:

* The Rust `Vec` stacks (`open_nestings`, `scope_stack`) push at the END of the
  vector, so the top of the stack is the last element.  Here stacks are Lean
  lists with the TOP AT THE HEAD (push is cons); a Rust vector
  `[bottom, ..., top]` corresponds to the Lean list `[top, ..., bottom]`.
  Whenever a list is kept in the Rust orientation (bottom first) this is said
  explicitly; in particular `NestingDelta.removed` keeps the exact order of the
  Rust `removed` vector so that the rollback logic can be translated verbatim.
* Rust panics (`assert!`, `expect`, reading past EOF) are modelled by `Option`
  results (`none` = panic) or, for `update_nestings`' drain index, by a total
  function that agrees with the Rust code whenever the asserted invariant (a
  statement-level nesting is present, which follows from the `Top` invariant)
  holds.
* `f64` numeric-literal payloads are modelled by `ℚ` (every finite double is an
  exact rational; the two bounds used by the parser, `i32::MIN as f64` and
  `i32::MAX as f64`, are exactly representable doubles, so the comparisons and
  `floor` agree with the rational semantics).
-/

/-- Byte-string identifier (`ast::Name`). -/
abbrev Name := String

/-- Source position (`kailua_env::Pos`, external collaborator). -/
abbrev Pos := Nat

/-- Source span (`kailua_env::Span`, external collaborator): a begin and end
position, plus the dummy sentinel `Span::dummy()`. -/
inductive Span where
  | dummy : Span
  | mk : Pos → Pos → Span
deriving DecidableEq, Repr

/-- True for every span other than the `Span::dummy()` sentinel. -/
def Span.is_dummy : Span → Bool
  | .dummy => true
  | .mk _ _ => false

/-- A value paired with its span (`kailua_env::Spanned`). -/
structure Spanned (α : Type) where
  base : α
  span : Span
deriving DecidableEq, Repr

/-- Punctuation tokens (`lex::Punct`).  The enumeration itself lives in the
lexer crate, which is not under src/; the constructors are those listed in
spec §3 and referenced by parser.rs. -/
inductive Punct where
  | LParen | RParen | LBrace | RBrace | LBracket | RBracket
  | Comma | Semicolon | Dot | DotDot | DotDotDot | Colon | ColonColon
  | Eq | EqEq | TildeEq | Lt | Gt | LtEq | GtEq
  | Plus | Dash | Star | Slash | Percent | Caret | Hash
  | Pipe | Ques | Bang | LtLt | GtGt
  | DashDashV | DashDashHash | DashDashColon | DashDashGt
  | Newline
deriving DecidableEq, Repr

/-- Keyword tokens (`lex::Keyword`); again a lexer-crate enumeration, with the
constructors referenced by parser.rs and spec §3 (`Type` is spelled `Typ`
because `Type` is reserved in Lean). -/
inductive Keyword where
  | And | Break | Do | Else | Elseif | End | False | For | Function
  | If | In | Local | Nil | Not | Or | Repeat | Return | Then | True
  | Until | While
  | Assume | Global | Open | Typ | Vector | Map
deriving DecidableEq, Repr

/-- Tokens (`lex::Tok`): the categories of spec §3 as used by parser.rs.
Numeric literals carry the exact rational value of the `f64` payload. -/
inductive Tok where
  | punct : Punct → Tok
  | keyword : Keyword → Tok
  | name : Name → Tok
  | num : ℚ → Tok
  | str : Name → Tok
  | comment : Tok
  | EOF : Tok
deriving DecidableEq, Repr

/-- The delimiting pairs containing the cursor (parser.rs `enum Nesting`). -/
inductive Nesting where
  | Top | Meta | Paren | Brace | Bracket | Do | Then | Else | End | Until
deriving DecidableEq, Repr

/-- `Nesting::is_stmt_level` (parser.rs lines 69-75). -/
def Nesting.is_stmt_level : Nesting → Bool
  | .Top | .Meta | .Do | .Then | .Else | .End | .Until => true
  | _ => false

/-- Delta information required for rolling `open_nestings` back (parser.rs
`struct NestingDelta`).  `removed` is kept in the exact order of the Rust
vector, i.e. bottom-to-top of the removed segment of the stack. -/
structure NestingDelta where
  removed : List Nesting
  added : Nat
deriving DecidableEq, Repr

/-- The update actions of `Parser::update_nestings` (parser.rs lines 487-502). -/
inductive NAction where
  | None : NAction
  | Push : Nesting → NAction
  | Push2 : Nesting → Nesting → NAction
  | Push3 : Nesting → Nesting → Nesting → NAction
  | Pop : Nesting → NAction
  | PopAndPush : Nesting → Nesting → NAction
  | PopOrPush : Nesting → Nesting → NAction
deriving DecidableEq, Repr

/-- The `(pop_non_stmt, action)` classification table of
`Parser::update_nestings` (parser.rs lines 507-586); `meta` is
`self.ignore_after_newline.is_some()`. -/
def tokenAction (meta : Bool) (tok : Tok) : Bool × NAction :=
  match meta, tok with
  | _, .punct .LParen => (false, .Push .Paren)
  | _, .punct .LBrace => (false, .Push .Brace)
  | _, .punct .LBracket => (false, .Push .Bracket)
  | _, .punct .RParen => (false, .Pop .Paren)
  | _, .punct .RBrace => (false, .Pop .Brace)
  | _, .punct .RBracket => (false, .Pop .Bracket)
  | _, .punct .DashDashV => (false, .Push .Meta)
  | _, .punct .DashDashHash => (true, .Push .Meta)
  | _, .punct .DashDashColon => (true, .Push .Meta)
  | _, .punct .DashDashGt => (true, .Push .Meta)
  | _, .punct .Newline => (true, .Pop .Meta)
  | false, .keyword .While => (true, .Push2 .End .Do)
  | false, .keyword .For => (true, .Push2 .End .Do)
  | false, .keyword .Do => (true, .PopOrPush .Do .End)
  | false, .keyword .Function => (false, .Push .End)
  | false, .keyword .If => (true, .Push3 .End .Else .Then)
  | false, .keyword .Then => (true, .Pop .Then)
  | false, .keyword .Elseif => (true, .PopAndPush .Else .Else)
  | false, .keyword .Else => (true, .Pop .Else)
  | false, .keyword .Repeat => (true, .Push .Until)
  | false, .keyword .Until => (true, .Pop .Until)
  | _, .keyword .End => (!meta, .Pop .End)
  | _, .EOF => (true, .Pop .Top)
  | _, _ => (false, .None)

/-- Pop the stack down to (and including) the topmost occurrence of `epop`
(the Rust `rposition` + `drain(i..)` idiom of `Action::Pop`); returns
`(removed segment top-first, rest)`, or `none` when `epop` is not open. -/
def popNesting (epop : Nesting) : List Nesting → Option (List Nesting × List Nesting)
  | [] => none
  | e :: rest =>
    if e = epop then some ([e], rest)
    else
      match popNesting epop rest with
      | some (removed, kept) => some (e :: removed, kept)
      | none => none

/-- The pre-close drain of `Parser::update_nestings` (parser.rs lines
588-598): split off the maximal top segment of punctuation-level nestings.
The first component (top-first) is the drained segment; the Rust drain yields
it bottom-to-top, i.e. reversed.  The Rust code `expect`s a statement-level
nesting to be present; this total version agrees with it whenever one is
(which the `Top` invariant guarantees), and otherwise drains everything. -/
def precloseSplit (st : List Nesting) : List Nesting × List Nesting :=
  (st.takeWhile (fun n => !n.is_stmt_level), st.dropWhile (fun n => !n.is_stmt_level))

/-- Execute one `Action` (parser.rs lines 600-662); returns the new stack, the
removed entries in the Rust order (bottom-to-top), and the pushed count. -/
def applyAction (a : NAction) (st : List Nesting) : List Nesting × List Nesting × Nat :=
  match a with
  | .None => (st, [], 0)
  | .Push e => (e :: st, [], 1)
  | .Push2 e1 e2 => (e2 :: e1 :: st, [], 2)
  | .Push3 e1 e2 e3 => (e3 :: e2 :: e1 :: st, [], 3)
  | .Pop epop =>
    match popNesting epop st with
    | some (removed, kept) => (kept, removed.reverse, 0)
    | none => (st, [], 0)
  | .PopAndPush epop epush =>
    match popNesting epop st with
    | some (removed, kept) => (epush :: kept, removed.reverse, 1)
    | none => (st, [], 0)
  | .PopOrPush epop epush =>
    match popNesting epop st with
    | some (removed, kept) => (kept, removed.reverse, 0)
    | none => (epush :: st, [], 1)

/-- `Parser::update_nestings` (parser.rs lines 486-666) as a pure function of
the meta flag, the token and the stack: the pre-close drain runs first when
`pop_non_stmt` is set, then the action, and the delta lists the action-removed
entries followed by the pre-closed ones (`removed.append(&mut preremoved)`),
each segment in the Rust bottom-to-top order. -/
def update_nestings (meta : Bool) (tok : Tok) (st : List Nesting) :
    List Nesting × NestingDelta :=
  let pa := tokenAction meta tok
  let pre := if pa.1 then precloseSplit st else ([], st)
  let res := applyAction pa.2 pre.2
  (res.1, { removed := res.2.1 ++ pre.1.reverse, added := res.2.2 })

/-- `Parser::revert_nestings` (parser.rs lines 668-673): truncate the `added`
pushed entries and re-append the `removed` list.  In the top-first list
orientation, truncation drops `added` heads and the Rust `extend` re-pushes
the removed list left to right, i.e. prepends its reverse.  (The Rust
`assert!(delta.added <= len)` cannot fail after a matching read; `List.drop`
is total anyway.) -/
def revert_nestings (delta : NestingDelta) (st : List Nesting) : List Nesting :=
  delta.removed.reverse ++ st.drop delta.added

theorem popNesting_append (epop : Nesting) :
    ∀ st removed kept, popNesting epop st = some (removed, kept) →
      st = removed ++ kept := by
  intro st
  induction st with
  | nil => intro removed kept h; simp [popNesting] at h
  | cons e rest ih =>
    intro removed kept h
    by_cases he : e = epop
    · simp [popNesting, he] at h
      obtain ⟨h1, h2⟩ := h
      simp [← h1, ← h2, he]
    · simp [popNesting, he] at h
      cases hrec : popNesting epop rest with
      | none => rw [hrec] at h; simp at h
      | some p =>
        rw [hrec] at h
        simp at h
        obtain ⟨h1, h2⟩ := h
        have := ih p.1 p.2 (by rw [hrec])
        simp [← h1, ← h2, this]

theorem applyAction_restore (a : NAction) (st : List Nesting) :
    (applyAction a st).2.1.reverse ++ (applyAction a st).1.drop (applyAction a st).2.2 = st := by
  cases a with
  | None => simp [applyAction]
  | Push e => simp [applyAction]
  | Push2 e1 e2 => simp [applyAction]
  | Push3 e1 e2 e3 => simp [applyAction]
  | Pop epop =>
    cases h : popNesting epop st with
    | none => simp [applyAction, h]
    | some p =>
      have := popNesting_append epop st p.1 p.2 (by rw [h]; )
      simp [applyAction, h, ← this]
  | PopAndPush epop epush =>
    cases h : popNesting epop st with
    | none => simp [applyAction, h]
    | some p =>
      have := popNesting_append epop st p.1 p.2 (by rw [h]; )
      simp [applyAction, h, ← this]
  | PopOrPush epop epush =>
    cases h : popNesting epop st with
    | none => simp [applyAction, h]
    | some p =>
      have := popNesting_append epop st p.1 p.2 (by rw [h]; )
      simp [applyAction, h, ← this]

theorem precloseSplit_append (st : List Nesting) :
    (precloseSplit st).1 ++ (precloseSplit st).2 = st := by
  simp [precloseSplit, List.takeWhile_append_dropWhile]

theorem update_nestings_restore (meta : Bool) (tok : Tok) (st : List Nesting) :
    (update_nestings meta tok st).2.removed.reverse ++
      (update_nestings meta tok st).1.drop (update_nestings meta tok st).2.added = st := by
  unfold update_nestings
  cases hpa : tokenAction meta tok with
  | mk pns a =>
    cases pns with
    | false =>
      simpa using applyAction_restore a st
    | true =>
      have h1 := applyAction_restore a (precloseSplit st).2
      have h2 := precloseSplit_append st
      simp only [if_true]
      rw [List.reverse_append, List.reverse_reverse, List.append_assoc, h1, h2]

theorem revert_update_nestings (meta : Bool) (tok : Tok) (st : List Nesting) :
    revert_nestings (update_nestings meta tok st).2 (update_nestings meta tok st).1 = st := by
  unfold revert_nestings
  exact update_nestings_restore meta tok st

/-- Modelled from the spec: scope handles generated by the external
`kailua_env::ScopeMap` (spec §6), represented by their generation index. -/
abbrev Scope := Nat

/-- Modelled from the spec: the unique per-`add_name` identifiers (`ScopedId`). -/
abbrev ScopedId := Nat

/-- Modelled from the spec: the external `kailua_env::ScopeMap` collaborator
(spec §3, §6).  It generates fresh child scopes, associates `(scope, name)`
pairs to `ScopedId`s unique per call, records spans for scopes, and looks
names up along the ancestor chain.  `parents.get? s` is the parent of scope
`s` (`none` = root scope); `names` holds the associations most recent first
(a later `add_name` on the same key shadows the earlier one, as a hash-map
insert does); `nextId` backs the per-call uniqueness of `ScopedId`s. -/
structure ScopeMap where
  parents : List (Option Scope)
  names : List ((Scope × Name) × ScopedId)
  nextId : Nat
  spans : List (Scope × Span)
deriving DecidableEq, Repr

/-- Modelled from the spec: `ScopeMap::new()`, the empty map. -/
def ScopeMap.new : ScopeMap := ⟨[], [], 0, []⟩

/-- Modelled from the spec: `generate(parent) → Scope`, a fresh child scope. -/
def ScopeMap.generate (m : ScopeMap) (parent : Scope) : Scope × ScopeMap :=
  (m.parents.length, { m with parents := m.parents ++ [some parent] })

/-- Modelled from the spec: `generate_root() → Scope`, a fresh root scope. -/
def ScopeMap.generate_root (m : ScopeMap) : Scope × ScopeMap :=
  (m.parents.length, { m with parents := m.parents ++ [none] })

/-- Modelled from the spec: `add_name(scope, name) → ScopedId`, unique per call. -/
def ScopeMap.add_name (m : ScopeMap) (scope : Scope) (name : Name) : ScopedId × ScopeMap :=
  (m.nextId, { m with names := ((scope, name), m.nextId) :: m.names, nextId := m.nextId + 1 })

/-- Direct (non-ancestor) lookup of a name in one scope. -/
def ScopeMap.lookupName (m : ScopeMap) (scope : Scope) (name : Name) : Option ScopedId :=
  (m.names.find? (fun e => e.1 = (scope, name))).map (fun e => e.2)

/-- Parent of a scope, `none` for roots and unknown scopes. -/
def ScopeMap.parentOf (m : ScopeMap) (scope : Scope) : Option Scope :=
  (m.parents.get? scope).join

/-- Fuelled ancestor walk backing `find_name_in_scope`. -/
def ScopeMap.findNameFuel (m : ScopeMap) : Nat → Scope → Name → Option (Scope × ScopedId)
  | 0, _, _ => none
  | fuel+1, scope, name =>
    match m.lookupName scope name with
    | some id => some (scope, id)
    | none =>
      match m.parentOf scope with
      | some p => m.findNameFuel fuel p name
      | none => none

/-- Modelled from the spec: `find_name_in_scope(scope, name)` searching the
ancestor chain.  In every map the parser constructs each scope's parent is an
earlier scope, so the chain is finite; the fuel is enough for any such map. -/
def ScopeMap.find_name_in_scope (m : ScopeMap) (scope : Scope) (name : Name) :
    Option (Scope × ScopedId) :=
  m.findNameFuel (m.parents.length + 1) scope name

/-- Modelled from the spec: `set_span(scope_with_span)`. -/
def ScopeMap.set_span (m : ScopeMap) (scope : Scope) (span : Span) : ScopeMap :=
  { m with spans := (scope, span) :: m.spans }

/-- `ast::NameRef`: a locally scoped binding or a global name. -/
inductive NameRef where
  | Local : ScopedId → NameRef
  | Global : Name → NameRef
deriving DecidableEq, Repr

/-- `struct ElidedTokens` (parser.rs line 222): the span of the last elided
meta-begin token when one or more (newline + meta begin) pairs were elided. -/
abbrev ElidedTokens := Option Span

/-- `struct Side` (parser.rs lines 212-219): the side information returned by
`read` and required by `unread`. -/
structure Side where
  elided_tokens : ElidedTokens
  nesting_delta : NestingDelta
deriving DecidableEq, Repr

/-- `enum Stop` (parser.rs lines 83-89): the two error grades. -/
inductive Stop where
  | Fatal : Stop
  | Recover : Stop
deriving DecidableEq, Repr

/-- The parser state (parser.rs `struct Parser`, lines 16-41) minus the
borrowed diagnostic reporter, whose side effects are outside this model. -/
structure ParserState where
  iter : List (Spanned Tok)
  elided_newline : Option Span
  lookahead : Option (Spanned Tok)
  lookahead2 : Option (Spanned Tok)
  last_span : Span
  last_span2 : Span
  ignore_after_newline : Option Punct
  open_nestings : List Nesting
  scope_map : ScopeMap
  global_scope : List Name
  scope_stack : List (Scope × Pos)
deriving DecidableEq, Repr

/-- `HashSet::insert` on the global-name set. -/
def insertGlobal (n : Name) (g : List Name) : List Name :=
  if n ∈ g then g else n :: g

/-- `Parser::_next` (parser.rs lines 300-315): pull the next token from the
fused iterator, discarding comment tokens; `none` once it is exhausted. -/
def nextTok : List (Spanned Tok) → Option (Spanned Tok) × List (Spanned Tok)
  | [] => (none, [])
  | t :: rest => if t.base = Tok.comment then nextTok rest else (some t, rest)

theorem nextTok_length_le (l : List (Spanned Tok)) : (nextTok l).2.length ≤ l.length := by
  induction l with
  | nil => simp [nextTok]
  | cons t rest ih =>
    by_cases h : t.base = Tok.comment
    · simp [nextTok, h]; omega
    · simp [nextTok, h]

theorem nextTok_length_lt (l : List (Spanned Tok)) (t : Spanned Tok)
    (h : (nextTok l).1 = some t) : (nextTok l).2.length < l.length := by
  induction l with
  | nil => simp [nextTok] at h
  | cons u rest ih =>
    by_cases hu : u.base = Tok.comment
    · simp [nextTok, hu] at h ⊢
      exact Nat.lt_succ_of_lt (ih h)
    · simp [nextTok, hu]

/-- The token-elision loop of `Parser::_read` (parser.rs lines 322-339): while
the candidate token is a synthetic newline whose successor is the meta-begin
punctuation `p`, skip the pair (remembering the span of the skipped meta-begin
token) and pull a new candidate; a successor other than `p` is stored back
into the lookahead slot.  Arguments: the elided span so far, the current
candidate, the (single remaining) lookahead slot and the iterator. -/
def elisionLoop (p : Punct) (elided : Option Span) (next : Option (Spanned Tok))
    (la : Option (Spanned Tok)) (iter : List (Spanned Tok)) :
    Option Span × Option (Spanned Tok) × Option (Spanned Tok) × List (Spanned Tok) :=
  match next with
  | some t =>
    if t.base = Tok.punct Punct.Newline then
      match la with
      | some t2 =>
        if t2.base = Tok.punct p then
          let nx := nextTok iter
          elisionLoop p (some t2.span) nx.1 none nx.2
        else (elided, some t, some t2, iter)
      | none =>
        let n2 := nextTok iter
        match hn2 : n2.1 with
        | some t2 =>
          if t2.base = Tok.punct p then
            let nx := nextTok n2.2
            elisionLoop p (some t2.span) nx.1 none nx.2
          else (elided, some t, some t2, n2.2)
        | none => (elided, some t, none, n2.2)
    else (elided, some t, la, iter)
  | none => (elided, none, la, iter)
termination_by 2 * iter.length + (if la.isSome then 1 else 0)
decreasing_by
  · simp only [Option.isSome_none, Option.isSome_some, if_true, if_false,
      Bool.false_eq_true, Bool.true_eq_false, ite_true, ite_false]
    have := nextTok_length_le iter
    omega
  · have h1 : (nextTok iter).2.length < iter.length :=
      nextTok_length_lt iter t2 hn2
    have h2 := nextTok_length_le (nextTok iter).2
    simp only [Option.isSome_none, Option.isSome_some, if_true, if_false,
      Bool.false_eq_true, Bool.true_eq_false, ite_true, ite_false]
    omega

/-- `Parser::_read` (parser.rs lines 317-346), first step: take the candidate
token from the lookahead slots or the iterator (line 318), leaving at most one
buffered lookahead.  `none` in the first component models the iterator being
exhausted (the `expect` panic of line 345 fires when the candidate is still
`none` at the end). -/
def takeBuffered (s : ParserState) :
    Option (Spanned Tok) × Option (Spanned Tok) × List (Spanned Tok) :=
  match s.lookahead, s.lookahead2 with
  | some t, la2 => (some t, la2, s.iter)
  | none, some t => (some t, none, s.iter)
  | none, none => ((nextTok s.iter).1, none, (nextTok s.iter).2)

/-- `Parser::_read` continued: dispatch on the ignore-after-newline mode; in
meta mode run the elision loop, otherwise hand the candidate out directly
(after the assert that no stale elided span is pending). -/
def _read (s : ParserState) : Option (ElidedTokens × Spanned Tok × ParserState) :=
  match s.ignore_after_newline with
  | some meta =>
    match (elisionLoop meta s.elided_newline (takeBuffered s).1 (takeBuffered s).2.1
        (takeBuffered s).2.2) with
    | (elided, some t, la, iter) =>
      some (elided, t, { s with elided_newline := none, lookahead := la,
                                lookahead2 := none, iter := iter })
    | (_, none, _, _) => none
  | none =>
    match s.elided_newline with
    | some _ => none
    | none =>
      match (takeBuffered s).1 with
      | some t =>
        some (none, t, { s with elided_newline := none, lookahead := none,
                                lookahead2 := (takeBuffered s).2.1,
                                iter := (takeBuffered s).2.2 })
      | none => none

/-- `Parser::read` (parser.rs lines 348-354).  (Named with the full
`ParserState` prefix because a bare `read` is ambiguous in Lean.) -/
def ParserState.read (s : ParserState) : Option (Side × Spanned Tok × ParserState) :=
  match _read s with
  | none => none
  | some (elided, next, s1) =>
    let u := update_nestings s1.ignore_after_newline.isSome next.base s1.open_nestings
    some ({ elided_tokens := elided, nesting_delta := u.2 }, next,
          { s1 with open_nestings := u.1, last_span2 := s1.last_span,
                    last_span := next.span })

/-- `Parser::_unread` (parser.rs lines 356-369); `none` models the assert that
at most two lookahead tokens are supported. -/
def _unread (elided : ElidedTokens) (tok : Spanned Tok) (s : ParserState) :
    Option ParserState :=
  if s.lookahead.isSome && s.lookahead2.isSome then none
  else
    some { s with elided_newline := elided,
                  lookahead2 := if s.lookahead.isSome then s.lookahead else s.lookahead2,
                  lookahead := some tok }

/-- `Parser::unread` (parser.rs lines 371-384). -/
def unread (side : Side) (tok : Spanned Tok) (s : ParserState) : Option ParserState :=
  match _unread side.elided_tokens tok s with
  | none => none
  | some s1 =>
    let s2 :=
      match side.elided_tokens with
      | some sp => { s1 with last_span := sp }
      | none => { s1 with last_span := s1.last_span2, last_span2 := Span.dummy }
    some { s2 with open_nestings := revert_nestings side.nesting_delta s2.open_nestings }

/-- `Parser::peek` (parser.rs lines 386-393): fill the lookahead slot through a
raw `_read`/`_unread` pair when it is empty, and return the buffered token. -/
def peek (s : ParserState) : Option (Spanned Tok × ParserState) :=
  match s.lookahead with
  | some t => some (t, s)
  | none =>
    match _read s with
    | none => none
    | some (elided, tok, s1) =>
      match _unread elided tok s1 with
      | none => none
      | some s2 => some (tok, s2)

/-- Number of tokens still buffered or pending; every successful `read`
consumes at least one of them, so this bounds the recursion fuel of the
skipping loops below. -/
def avail (s : ParserState) : Nat :=
  (if s.lookahead.isSome then 1 else 0) + (if s.lookahead2.isSome then 1 else 0) +
    s.iter.length

/-- The loop body of `Parser::skip_meta_comment` (parser.rs lines 806-818):
read until a newline is consumed, but unread an EOF so the buffer is never
advanced past it. -/
def skipMetaFuel : Nat → ParserState → Option ParserState
  | 0, _ => none
  | fuel+1, s =>
    match s.read with
    | none => none
    | some (side, t, s1) =>
      match t.base with
      | Tok.punct Punct.Newline => some s1
      | Tok.EOF => unread side t s1
      | _ => skipMetaFuel fuel s1

/-- `Parser::skip_meta_comment` (parser.rs lines 804-819); the assert on
`ignore_after_newline` is modelled by the guard. -/
def skip_meta_comment (meta : Punct) (s : ParserState) : Option ParserState :=
  if s.ignore_after_newline = some meta then skipMetaFuel (avail s + 1) s else none

/-- The token-skipping loop of `Parser::recover_retry` (parser.rs lines
688-699), instrumented: besides the Rust behaviour it also returns the list of
skipped (side, token) pairs, each with the minimum instantaneous nesting depth
of its read, and the minimum depth of the final read (the first read whose
minimum depth falls below `depth`). -/
def recoverSkipFuel (depth : Nat) :
    Nat → ParserState →
    Option (List ((Side × Spanned Tok) × Nat) × (Side × Spanned Tok) × Nat × ParserState)
  | 0, _ => none
  | fuel+1, s =>
    match s.read with
    | none => none
    | some (side, t, s1) =>
      let lastMin := s1.open_nestings.length - side.nesting_delta.added
      if lastMin < depth then some ([], (side, t), lastMin, s1)
      else
        match recoverSkipFuel depth fuel s1 with
        | none => none
        | some (skipped, last, lastMin2, s2) =>
          some (((side, t), lastMin) :: skipped, last, lastMin2, s2)

/-- The error path of `Parser::recover_retry` (parser.rs lines 685-716): if
the current depth is still at least the captured entry depth, skip tokens
until the minimum instantaneous depth of a read falls below the entry depth,
then push that last token back when unreading was requested, when the depth
ended up more than one below the entry depth, or when the last token opened a
new nesting.  (`depth - cur_depth` underflows in Rust when `cur_depth >
depth`, but in that case `last_min_depth < cur_depth` holds as well, so the
truncating Nat subtraction used here decides exactly as the release-mode Rust
code.)  The boolean records whether the final token was pushed back. -/
def recoverOnError (always_unread : Bool) (depth : Nat) (s : ParserState) :
    Option (Bool × ParserState) :=
  if depth ≤ s.open_nestings.length then
    match recoverSkipFuel depth (avail s + 1) s with
    | none => none
    | some (_, (side, t), _, s1) =>
      let cur := s1.open_nestings.length
      let lastMin := cur - side.nesting_delta.added
      if always_unread || decide (1 < depth - cur) || decide (lastMin < cur) then
        match unread side t s1 with
        | none => none
        | some s2 => some (true, s2)
      else some (false, s1)
  else some (false, s)

/-- `Parser::recover_retry` (parser.rs lines 676-722) applied to the outcome
of the wrapped closure: `depth` is the entry depth captured before the closure
ran, `ret` its result, and `s` the state at its end; on any error the recovery
of `recoverOnError` runs. -/
def recover_retry {α : Type} (always_unread : Bool) (depth : Nat)
    (ret : Except Stop α) (s : ParserState) : Option (Except Stop α × ParserState) :=
  match ret with
  | .ok v => some (.ok v, s)
  | .error e =>
    match recoverOnError always_unread depth s with
    | none => none
    | some (_, s1) => some (.error e, s1)

/-- `Parser::recover_with` (parser.rs lines 724-732): recover, then replace a
recoverable failure by the handler's dummy value. -/
def recover_with {α : Type} (depth : Nat) (ret : Except Stop α) (s : ParserState)
    (dummy : α) : Option (Except Stop α × ParserState) :=
  match recover_retry false depth ret s with
  | none => none
  | some (.ok v, s1) => some (.ok v, s1)
  | some (.error .Recover, s1) => some (.ok dummy, s1)
  | some (.error .Fatal, s1) => some (.error .Fatal, s1)

theorem _read_fields (s : ParserState) (e : ElidedTokens) (t : Spanned Tok)
    (s' : ParserState) (h : _read s = some (e, t, s')) :
    s'.open_nestings = s.open_nestings ∧ s'.ignore_after_newline = s.ignore_after_newline ∧
    s'.last_span = s.last_span ∧ s'.last_span2 = s.last_span2 ∧
    s'.scope_map = s.scope_map ∧ s'.global_scope = s.global_scope ∧
    s'.scope_stack = s.scope_stack ∧ (s'.lookahead = none ∨ s'.lookahead2 = none) := by
  unfold _read at h
  split at h
  · split at h
    · simp only [Option.some.injEq, Prod.mk.injEq] at h
      obtain ⟨h1, h2, h3⟩ := h
      subst h3
      simp
    · exact absurd h (by simp)
  · split at h
    · exact absurd h (by simp)
    · split at h
      · simp only [Option.some.injEq, Prod.mk.injEq] at h
        obtain ⟨h1, h2, h3⟩ := h
        subst h3
        simp
      · exact absurd h (by simp)

theorem read_fields (s : ParserState) (side : Side) (t : Spanned Tok)
    (s1 : ParserState) (h : s.read = some (side, t, s1)) :
    s1.open_nestings =
      (update_nestings s.ignore_after_newline.isSome t.base s.open_nestings).1 ∧
    side.nesting_delta =
      (update_nestings s.ignore_after_newline.isSome t.base s.open_nestings).2 ∧
    s1.ignore_after_newline = s.ignore_after_newline ∧
    s1.scope_map = s.scope_map ∧ s1.global_scope = s.global_scope ∧
    s1.scope_stack = s.scope_stack ∧ (s1.lookahead = none ∨ s1.lookahead2 = none) ∧
    s1.last_span = t.span ∧ s1.last_span2 = s.last_span := by
  unfold ParserState.read at h
  cases hrd : _read s with
  | none => rw [hrd] at h; exact absurd h (by simp)
  | some r =>
    obtain ⟨e, t0, s0⟩ := r
    rw [hrd] at h
    simp only [Option.some.injEq, Prod.mk.injEq] at h
    obtain ⟨hside, ht0, hs1⟩ := h
    obtain ⟨f1, f2, f3, f4, f5, f6, f7, f8⟩ := _read_fields s e t0 s0 hrd
    subst hs1 ht0
    refine ⟨by simp [f1, f2], ?_, by simp [f2], by simp [f5], by simp [f6],
            by simp [f7], ?_, by simp, by simp [f3]⟩
    · rw [← hside]
      simp [f1, f2]
    · rcases f8 with f8 | f8
      · exact Or.inl (by simp [f8])
      · exact Or.inr (by simp [f8])

/-- C2: performing `unread` immediately after the matching `read` restores the
open-nesting stack exactly: `revert_nestings` truncates the entries the read
pushed and re-appends the entries it popped, so the stack is element-for-
element identical to its state before the read (including the case where a
statement-level token pre-closed punctuation-level nestings). -/
theorem read_then_unread_restores_nestings (s : ParserState) (side : Side)
    (t : Spanned Tok) (s1 : ParserState) (h : s.read = some (side, t, s1)) :
    ∃ s2, unread side t s1 = some s2 ∧ s2.open_nestings = s.open_nestings := by
  obtain ⟨f1, f2, _, _, _, _, f7, _, _⟩ := read_fields s side t s1 h
  have hguard : (s1.lookahead.isSome && s1.lookahead2.isSome) = false := by
    rcases f7 with f7 | f7 <;> simp [f7]
  have hrev : revert_nestings side.nesting_delta s1.open_nestings = s.open_nestings := by
    rw [f1, f2]
    exact revert_update_nestings s.ignore_after_newline.isSome t.base s.open_nestings
  unfold unread _unread
  rw [hguard]
  simp only [Bool.false_eq_true, if_false]
  cases he : side.elided_tokens with
  | some sp => exact ⟨_, rfl, by simpa using hrev⟩
  | none => exact ⟨_, rfl, by simpa using hrev⟩

/-- A concrete parser state used by witnesses: a parser about to read a left
parenthesis, with an EOF buffered behind it. -/
def exampleState : ParserState :=
  { iter := [],
    elided_newline := none,
    lookahead := some (Spanned.mk (Tok.punct Punct.LParen) (Span.mk 0 1)),
    lookahead2 := some (Spanned.mk Tok.EOF (Span.mk 1 1)),
    last_span := Span.mk 0 0,
    last_span2 := Span.dummy,
    ignore_after_newline := none,
    open_nestings := [Nesting.Top],
    scope_map := ScopeMap.new,
    global_scope := [],
    scope_stack := [] }

/-- The side information `exampleState.read` returns. -/
def exampleSide : Side :=
  { elided_tokens := none, nesting_delta := { removed := [], added := 1 } }

/-- The state `exampleState.read` leaves behind. -/
def exampleAfterRead : ParserState :=
  { exampleState with lookahead := none, last_span := Span.mk 0 1,
                      last_span2 := Span.mk 0 0,
                      open_nestings := [Nesting.Paren, Nesting.Top] }

theorem read_then_unread_restores_nestings_witness :
    ∃ s2, unread exampleSide (Spanned.mk (Tok.punct Punct.LParen) (Span.mk 0 1))
        exampleAfterRead = some s2 ∧
      s2.open_nestings = exampleState.open_nestings :=
  read_then_unread_restores_nestings exampleState exampleSide
    (Spanned.mk (Tok.punct Punct.LParen) (Span.mk 0 1)) exampleAfterRead (by rfl)

/-- The pop target of an action, if any (used to state that no non-EOF token
can close the `Top` nesting). -/
def NAction.popTarget : NAction → Option Nesting
  | .Pop e => some e
  | .PopAndPush e _ => some e
  | .PopOrPush e _ => some e
  | _ => none

theorem tokenAction_popTarget_ne_top (meta : Bool) (tok : Tok)
    (ht : tok ≠ Tok.EOF) :
    (tokenAction meta tok).2.popTarget ≠ some Nesting.Top := by
  cases tok with
  | punct p => cases meta <;> cases p <;> simp [tokenAction, NAction.popTarget]
  | keyword k => cases meta <;> cases k <;> simp [tokenAction, NAction.popTarget]
  | name n => cases meta <;> simp [tokenAction, NAction.popTarget]
  | num q => cases meta <;> simp [tokenAction, NAction.popTarget]
  | str n => cases meta <;> simp [tokenAction, NAction.popTarget]
  | comment => cases meta <;> simp [tokenAction, NAction.popTarget]
  | EOF => exact absurd rfl ht

theorem popNesting_bottom (epop : Nesting) (he : epop ≠ Nesting.Top) :
    ∀ (fr removed kept : List Nesting),
      popNesting epop (fr ++ [Nesting.Top]) = some (removed, kept) →
      ∃ fr2, kept = fr2 ++ [Nesting.Top] := by
  intro fr
  induction fr with
  | nil =>
    intro removed kept h
    simp [popNesting, Ne.symm he] at h
  | cons e fr ih =>
    intro removed kept h
    by_cases hc : e = epop
    · simp [popNesting, hc] at h
      exact ⟨fr, h.2.symm⟩
    · simp only [List.cons_append, popNesting, hc, if_false, List.append_eq] at h
      cases hrec : popNesting epop (fr ++ [Nesting.Top]) with
      | none => rw [hrec] at h; exact absurd h (by simp)
      | some p =>
        rw [hrec] at h
        simp only [Option.some.injEq, Prod.mk.injEq] at h
        obtain ⟨fr2, hfr2⟩ := ih p.1 p.2 (by rw [hrec])
        exact ⟨fr2, by rw [← h.2, hfr2]⟩

theorem dropWhile_bottom (p : Nesting → Bool) (hp : p Nesting.Top = false) :
    ∀ fr : List Nesting,
      ∃ fr2, (fr ++ [Nesting.Top]).dropWhile p = fr2 ++ [Nesting.Top] := by
  intro fr
  induction fr with
  | nil => exact ⟨[], by simp [List.dropWhile, hp]⟩
  | cons e fr ih =>
    by_cases hc : p e = true
    · obtain ⟨fr2, hfr2⟩ := ih
      exact ⟨fr2, by simp [List.dropWhile, hc, hfr2]⟩
    · exact ⟨e :: fr, by simp [List.dropWhile, hc]⟩

theorem applyAction_bottom (a : NAction) (ha : a.popTarget ≠ some Nesting.Top)
    (st : List Nesting) (h : ∃ fr, st = fr ++ [Nesting.Top]) :
    ∃ fr2, (applyAction a st).1 = fr2 ++ [Nesting.Top] := by
  obtain ⟨fr, rfl⟩ := h
  cases a with
  | None => exact ⟨fr, rfl⟩
  | Push e => exact ⟨e :: fr, rfl⟩
  | Push2 e1 e2 => exact ⟨e2 :: e1 :: fr, rfl⟩
  | Push3 e1 e2 e3 => exact ⟨e3 :: e2 :: e1 :: fr, rfl⟩
  | Pop epop =>
    have he : epop ≠ Nesting.Top := by
      intro hco; exact ha (by simp [NAction.popTarget, hco])
    cases hpop : popNesting epop (fr ++ [Nesting.Top]) with
    | none => exact ⟨fr, by simp [applyAction, hpop]⟩
    | some pr =>
      obtain ⟨fr2, hfr2⟩ := popNesting_bottom epop he fr pr.1 pr.2 (by rw [hpop])
      exact ⟨fr2, by simp [applyAction, hpop, hfr2]⟩
  | PopAndPush epop epush =>
    have he : epop ≠ Nesting.Top := by
      intro hco; exact ha (by simp [NAction.popTarget, hco])
    cases hpop : popNesting epop (fr ++ [Nesting.Top]) with
    | none => exact ⟨fr, by simp [applyAction, hpop]⟩
    | some pr =>
      obtain ⟨fr2, hfr2⟩ := popNesting_bottom epop he fr pr.1 pr.2 (by rw [hpop])
      exact ⟨epush :: fr2, by simp [applyAction, hpop, hfr2]⟩
  | PopOrPush epop epush =>
    have he : epop ≠ Nesting.Top := by
      intro hco; exact ha (by simp [NAction.popTarget, hco])
    cases hpop : popNesting epop (fr ++ [Nesting.Top]) with
    | none => exact ⟨epush :: fr, by simp [applyAction, hpop]⟩
    | some pr =>
      obtain ⟨fr2, hfr2⟩ := popNesting_bottom epop he fr pr.1 pr.2 (by rw [hpop])
      exact ⟨fr2, by simp [applyAction, hpop, hfr2]⟩

theorem update_preserves_top (meta : Bool) (tok : Tok) (st : List Nesting)
    (ht : tok ≠ Tok.EOF) (h : ∃ fr, st = fr ++ [Nesting.Top]) :
    ∃ fr2, (update_nestings meta tok st).1 = fr2 ++ [Nesting.Top] := by
  have ha := tokenAction_popTarget_ne_top meta tok ht
  unfold update_nestings
  cases hpa : tokenAction meta tok with
  | mk pns a =>
    rw [hpa] at ha
    cases pns with
    | false => simpa using applyAction_bottom a ha st h
    | true =>
      obtain ⟨fr, rfl⟩ := h
      obtain ⟨fr2, hfr2⟩ :=
        dropWhile_bottom (fun n => !n.is_stmt_level) (by decide) fr
      have := applyAction_bottom a ha ((fr ++ [Nesting.Top]).dropWhile
        (fun n => !n.is_stmt_level)) ⟨fr2, hfr2⟩
      simpa [precloseSplit] using this

/-- Evolution of the nesting stack over a sequence of reads: fold
`update_nestings` from the initial stack `[Top]` of `Parser::new`
(parser.rs line 287); each token is read under its own meta flag. -/
def nestingsAfter (toks : List (Bool × Tok)) : List Nesting :=
  toks.foldl (fun st mt => (update_nestings mt.1 mt.2 st).1) [Nesting.Top]

theorem foldl_preserves_top :
    ∀ (toks : List (Bool × Tok)) (st : List Nesting),
      (∃ fr, st = fr ++ [Nesting.Top]) → (∀ mt ∈ toks, mt.2 ≠ Tok.EOF) →
      ∃ fr, toks.foldl (fun st mt => (update_nestings mt.1 mt.2 st).1) st
        = fr ++ [Nesting.Top] := by
  intro toks
  induction toks with
  | nil => intro st h _; simpa using h
  | cons mt toks ih =>
    intro st h hne
    have h1 := update_preserves_top mt.1 mt.2 st (hne mt (by simp)) h
    have h2 : ∀ mt2 ∈ toks, mt2.2 ≠ Tok.EOF := fun mt2 hm => hne mt2 (by simp [hm])
    simpa using ih ((update_nestings mt.1 mt.2 st).1) h1 h2

/-- C3: starting from the initial stack `[Top]` of `Parser::new`, after any
sequence of reads of non-EOF tokens the open-nesting stack is non-empty with
`Top` as its bottom element, and a single read of any non-EOF token preserves
this shape (no token other than EOF can remove the `Top` nesting). -/
theorem nesting_stack_bottom_top :
    (∀ (meta : Bool) (tok : Tok) (st : List Nesting), tok ≠ Tok.EOF →
        (∃ fr, st = fr ++ [Nesting.Top]) →
        ∃ fr2, (update_nestings meta tok st).1 = fr2 ++ [Nesting.Top]) ∧
    (∀ toks : List (Bool × Tok), (∀ mt ∈ toks, mt.2 ≠ Tok.EOF) →
        ∃ fr, nestingsAfter toks = fr ++ [Nesting.Top]) := by
  constructor
  · exact fun meta tok st ht h => update_preserves_top meta tok st ht h
  · intro toks hne
    exact foldl_preserves_top toks [Nesting.Top] ⟨[], rfl⟩ hne

theorem nesting_stack_bottom_top_witness :
    ∃ fr, nestingsAfter
        [(false, Tok.keyword Keyword.Do), (false, Tok.punct Punct.LParen)]
      = fr ++ [Nesting.Top] :=
  nesting_stack_bottom_top.2
    [(false, Tok.keyword Keyword.Do), (false, Tok.punct Punct.LParen)] (by decide)

/-- C4 counterexample: when the statement-level token `end` pre-closes a
punctuation-level `Paren` nesting and then pops an `End` nesting by its own
action, the delta lists the action-popped `End` FIRST and the pre-closed
`Paren` last — not the pre-closed one first as the claim states (the list is
in bottom-to-top stack order, not chronological removal order). -/
theorem nesting_delta_order_counterexample :
    (update_nestings false (Tok.keyword Keyword.End)
        [Nesting.Paren, Nesting.End, Nesting.Top]).2.removed
      = [Nesting.End, Nesting.Paren] ∧
    ¬ (update_nestings false (Tok.keyword Keyword.End)
        [Nesting.Paren, Nesting.End, Nesting.Top]).2.removed
      = [Nesting.Paren, Nesting.End] := by decide

theorem applyAction_added_le (a : NAction) (st : List Nesting) :
    (applyAction a st).2.2 ≤ (applyAction a st).1.length := by
  cases a with
  | None => simp [applyAction]
  | Push e => simp [applyAction]
  | Push2 e1 e2 => simp [applyAction]
  | Push3 e1 e2 e3 => simp [applyAction]
  | Pop epop => cases hpop : popNesting epop st <;> simp [applyAction, hpop]
  | PopAndPush epop epush => cases hpop : popNesting epop st <;> simp [applyAction, hpop]
  | PopOrPush epop epush => cases hpop : popNesting epop st <;> simp [applyAction, hpop]

theorem update_nestings_added_le (meta : Bool) (tok : Tok) (st : List Nesting) :
    (update_nestings meta tok st).2.added ≤ (update_nestings meta tok st).1.length := by
  unfold update_nestings
  cases hpa : tokenAction meta tok with
  | mk pns a =>
    cases pns with
    | false => simpa using applyAction_added_le a st
    | true => simpa using applyAction_added_le a (precloseSplit st).2

/-- C4 (amended): the delta returned alongside a read lists the popped
nestings as the removed segment of the stack in bottom-to-top order — the
nestings popped by the token's own action first, then the pre-closed
punctuation-level ones — together with the count of pushed nestings: dropping
the `added` newest entries of the new stack and putting the removed segment
back yields the original stack exactly, and the lengths balance. -/
theorem nesting_delta_order_amended (meta : Bool) (tok : Tok) (st : List Nesting) :
    (update_nestings meta tok st).2.removed.reverse ++
        (update_nestings meta tok st).1.drop (update_nestings meta tok st).2.added = st ∧
    (update_nestings meta tok st).2.added ≤ (update_nestings meta tok st).1.length ∧
    (update_nestings meta tok st).1.length +
        (update_nestings meta tok st).2.removed.length
      = st.length + (update_nestings meta tok st).2.added := by
  refine ⟨update_nestings_restore meta tok st, update_nestings_added_le meta tok st, ?_⟩
  have h1 := congrArg List.length (update_nestings_restore meta tok st)
  have h2 := update_nestings_added_le meta tok st
  simp only [List.length_append, List.length_reverse, List.length_drop] at h1
  omega

/-- The physical token sequence of consecutive (newline + meta-begin) pairs:
for each pair of spans a synthetic newline followed by the meta-begin
punctuation `p`. -/
def elisionPairs (p : Punct) (spans : List (Span × Span)) : List (Spanned Tok) :=
  (spans.map (fun sp => [Spanned.mk (Tok.punct Punct.Newline) sp.1,
                         Spanned.mk (Tok.punct p) sp.2])).flatten

/-- The span of the last meta-begin token among the pairs, `m` when there is
no further pair. -/
def lastMetaSpan (spans : List (Span × Span)) (m : Span) : Span :=
  match spans.getLast? with
  | some sp => sp.2
  | none => m

theorem lastMetaSpan_cons (nl1 m1 : Span) (spans : List (Span × Span)) (m : Span) :
    lastMetaSpan ((nl1, m1) :: spans) m = lastMetaSpan spans m1 := by
  cases spans with
  | nil => simp [lastMetaSpan]
  | cons a as =>
    cases h : (a :: as).getLast? with
    | none => simp at h
    | some sp => simp [lastMetaSpan, List.getLast?_cons_cons, h]

theorem elisionLoop_pairs (p : Punct) (t : Spanned Tok) (rest : List (Spanned Tok))
    (htn : t.base ≠ Tok.punct Punct.Newline) (htc : t.base ≠ Tok.comment) :
    ∀ (spans : List (Span × Span)) (e : Option Span) (nl m : Span),
      elisionLoop p e (some (Spanned.mk (Tok.punct Punct.Newline) nl)) none
          (Spanned.mk (Tok.punct p) m :: (elisionPairs p spans ++ t :: rest))
        = (some (lastMetaSpan spans m), some t, none, rest) := by
  intro spans
  induction spans with
  | nil =>
    intro e nl m
    rw [elisionLoop]
    simp [elisionPairs, nextTok, htc, lastMetaSpan]
    rw [elisionLoop]
    simp [htn]
  | cons sp spans ih =>
    intro e nl m
    obtain ⟨nl1, m1⟩ := sp
    rw [elisionLoop]
    simp [elisionPairs, nextTok]
    rw [lastMetaSpan_cons]
    have := ih (some m) nl1 m1
    simpa [elisionPairs] using this

/-- C5: with ignore-after-newline set to the meta-begin punctuation `p` and an
empty lookahead buffer, a read whose pending stream starts with one or more
(synthetic newline + `p`) pairs silently skips every pair, records the span of
the LAST skipped `p` token as the (single) elided span, and returns the first
token that does not begin such a pair, with the buffer holding no further
elided span. -/
theorem meta_elision_read (p : Punct) (s : ParserState)
    (spans : List (Span × Span)) (nl0 m0 : Span) (t : Spanned Tok)
    (rest : List (Spanned Tok))
    (hign : s.ignore_after_newline = some p)
    (hla : s.lookahead = none) (hla2 : s.lookahead2 = none)
    (hiter : s.iter = Spanned.mk (Tok.punct Punct.Newline) nl0 ::
        Spanned.mk (Tok.punct p) m0 :: (elisionPairs p spans ++ t :: rest))
    (htn : t.base ≠ Tok.punct Punct.Newline) (htc : t.base ≠ Tok.comment) :
    _read s = some (some (lastMetaSpan spans m0), t,
      { s with elided_newline := none, lookahead := none, lookahead2 := none,
               iter := rest }) := by
  have htb : takeBuffered s =
      (some (Spanned.mk (Tok.punct Punct.Newline) nl0), none,
       Spanned.mk (Tok.punct p) m0 :: (elisionPairs p spans ++ t :: rest)) := by
    unfold takeBuffered
    rw [hla, hla2, hiter]
    simp [nextTok]
  have hloop := elisionLoop_pairs p t rest htn htc spans s.elided_newline nl0 m0
  unfold _read
  rw [hign, htb]
  simp only []
  rw [hloop]

/-- A parser state in meta mode whose stream starts with one (newline + meta
begin) pair followed by a name token. -/
def exampleMetaState : ParserState :=
  { iter := [Spanned.mk (Tok.punct Punct.Newline) (Span.mk 5 6),
             Spanned.mk (Tok.punct Punct.DashDashHash) (Span.mk 6 9),
             Spanned.mk (Tok.name "x") (Span.mk 10 11)],
    elided_newline := none,
    lookahead := none,
    lookahead2 := none,
    last_span := Span.mk 0 5,
    last_span2 := Span.dummy,
    ignore_after_newline := some Punct.DashDashHash,
    open_nestings := [Nesting.Meta, Nesting.Top],
    scope_map := ScopeMap.new,
    global_scope := [],
    scope_stack := [] }

theorem meta_elision_read_witness :
    _read exampleMetaState = some (some (Span.mk 6 9),
      Spanned.mk (Tok.name "x") (Span.mk 10 11),
      { exampleMetaState with elided_newline := none, lookahead := none,
                              lookahead2 := none, iter := [] }) :=
  meta_elision_read Punct.DashDashHash exampleMetaState [] (Span.mk 5 6) (Span.mk 6 9)
    (Spanned.mk (Tok.name "x") (Span.mk 10 11)) [] rfl rfl rfl rfl
    (by decide) (by decide)

theorem _read_of_lookahead (s : ParserState) (t : Spanned Tok)
    (hla : s.lookahead = some t) (htn : t.base ≠ Tok.punct Punct.Newline)
    (hel : s.ignore_after_newline = none → s.elided_newline = none) :
    ∃ e s2, _read s = some (e, t, s2) := by
  have htb : takeBuffered s = (some t, s.lookahead2, s.iter) := by
    unfold takeBuffered
    rw [hla]
  unfold _read
  rw [htb]
  cases hign : s.ignore_after_newline with
  | some meta =>
    dsimp only
    rw [elisionLoop.eq_def]
    simp [htn]
  | none =>
    rw [hel hign]
    exact ⟨none, _, rfl⟩

theorem read_of_lookahead (s : ParserState) (t : Spanned Tok)
    (hla : s.lookahead = some t) (htn : t.base ≠ Tok.punct Punct.Newline)
    (hel : s.ignore_after_newline = none → s.elided_newline = none) :
    ∃ side s2, s.read = some (side, t, s2) := by
  obtain ⟨e, s2, h⟩ := _read_of_lookahead s t hla htn hel
  unfold ParserState.read
  rw [h]
  exact ⟨_, _, rfl⟩

/-- C10 (amended): `peek` leaves the parser's observable state unchanged — the
open-nesting stack, `last_span` and `last_span2`, the scope stack, the scope
map and the global-name set are identical before and after (its raw
`_read`/`_unread` pair never calls `update_nestings`) — and it leaves the
peeked token buffered, so that whenever the peeked token is not a synthetic
newline (in which case a pending elision pair may replace it), the next
`read()` returns exactly that token. -/
theorem peek_keeps_state (s : ParserState) (t : Spanned Tok) (s' : ParserState)
    (h : peek s = some (t, s')) :
    s'.open_nestings = s.open_nestings ∧ s'.last_span = s.last_span ∧
    s'.last_span2 = s.last_span2 ∧ s'.scope_map = s.scope_map ∧
    s'.scope_stack = s.scope_stack ∧ s'.global_scope = s.global_scope ∧
    s'.ignore_after_newline = s.ignore_after_newline ∧ s'.lookahead = some t ∧
    (t.base ≠ Tok.punct Punct.Newline →
      (s.ignore_after_newline = none → s.elided_newline = none) →
      ∃ side s2, s'.read = some (side, t, s2)) := by
  unfold peek at h
  cases hla : s.lookahead with
  | some t0 =>
    rw [hla] at h
    simp only [Option.some.injEq, Prod.mk.injEq] at h
    obtain ⟨ht, hs⟩ := h
    subst ht
    subst hs
    exact ⟨rfl, rfl, rfl, rfl, rfl, rfl, rfl, hla,
      fun htn hel => read_of_lookahead s t0 hla htn hel⟩
  | none =>
    rw [hla] at h
    dsimp only at h
    cases hrd : _read s with
    | none => rw [hrd] at h; exact absurd h (by simp)
    | some r =>
      obtain ⟨e, t0, s1⟩ := r
      rw [hrd] at h
      dsimp only at h
      obtain ⟨f1, f2, f3, f4, f5, f6, f7, f8⟩ := _read_fields s e t0 s1 hrd
      cases hun : _unread e t0 s1 with
      | none => rw [hun] at h; exact absurd h (by simp)
      | some s2 =>
        rw [hun] at h
        simp only [Option.some.injEq, Prod.mk.injEq] at h
        obtain ⟨ht, hs⟩ := h
        subst ht
        subst hs
        unfold _unread at hun
        have hguard : (s1.lookahead.isSome && s1.lookahead2.isSome) = false := by
          rcases f8 with f8 | f8 <;> simp [f8]
        rw [hguard] at hun
        simp only [Bool.false_eq_true, if_false, Option.some.injEq] at hun
        subst hun
        refine ⟨by simp [f1], by simp [f3], by simp [f4], by simp [f5],
                by simp [f7], by simp [f6], by simp [f2], by simp, ?_⟩
        intro htn hel
        refine read_of_lookahead _ t0 (by simp) htn ?_
        intro hign
        have hsel : e = none := by
          have hign0 : s.ignore_after_newline = none := by simpa [f2] using hign
          unfold _read at hrd
          rw [hign0] at hrd
          split at hrd
          next x meta heq => exact absurd heq (by simp)
          next x heq =>
            rw [hel hign0] at hrd
            split at hrd
            next x2 t1 heq2 => exact absurd hrd (by simp)
            next x2 heq2 =>
              split at hrd
              next t1 heq3 =>
                simp only [Option.some.injEq, Prod.mk.injEq] at hrd
                exact hrd.1.symm
              next heq3 => exact absurd hrd (by simp)
        simp [hsel]

theorem peek_keeps_state_witness :
    exampleState.open_nestings = exampleState.open_nestings ∧
    exampleState.last_span = exampleState.last_span ∧
    exampleState.last_span2 = exampleState.last_span2 ∧
    exampleState.scope_map = exampleState.scope_map ∧
    exampleState.scope_stack = exampleState.scope_stack ∧
    exampleState.global_scope = exampleState.global_scope ∧
    exampleState.ignore_after_newline = exampleState.ignore_after_newline ∧
    exampleState.lookahead = some (Spanned.mk (Tok.punct Punct.LParen) (Span.mk 0 1)) ∧
    ((Spanned.mk (Tok.punct Punct.LParen) (Span.mk 0 1)).base ≠ Tok.punct Punct.Newline →
      (exampleState.ignore_after_newline = none → exampleState.elided_newline = none) →
      ∃ side s2, exampleState.read
        = some (side, Spanned.mk (Tok.punct Punct.LParen) (Span.mk 0 1), s2)) :=
  peek_keeps_state exampleState (Spanned.mk (Tok.punct Punct.LParen) (Span.mk 0 1))
    exampleState rfl

/-- A synthetic newline token buffered in the lookahead slot. -/
def nlTok : Spanned Tok := Spanned.mk (Tok.punct Punct.Newline) (Span.mk 10 11)

/-- An EOF token pending in the iterator. -/
def eofTok : Spanned Tok := Spanned.mk Tok.EOF (Span.mk 20 20)

/-- A parser state in meta mode whose buffer holds a newline with the matching
meta-begin punctuation right behind it: the pending elision pair. -/
def examplePeekBad : ParserState :=
  { iter := [eofTok],
    elided_newline := none,
    lookahead := some nlTok,
    lookahead2 := some (Spanned.mk (Tok.punct Punct.DashDashHash) (Span.mk 11 14)),
    last_span := Span.mk 0 10,
    last_span2 := Span.dummy,
    ignore_after_newline := some Punct.DashDashHash,
    open_nestings := [Nesting.Meta, Nesting.Top],
    scope_map := ScopeMap.new,
    global_scope := [],
    scope_stack := [] }

/-- C10 counterexample: at a state whose buffer holds a pending newline +
meta-begin pair, `peek` returns the newline but the next `read` elides the
pair and returns the EOF behind it — a different token than `peek` returned,
refuting the claim's final clause. -/
theorem peek_read_counterexample :
    peek examplePeekBad = some (nlTok, examplePeekBad) ∧
    (∃ side s2, examplePeekBad.read = some (side, eofTok, s2)) ∧
    eofTok.base ≠ nlTok.base := by
  have h1 : elisionLoop Punct.DashDashHash none (some nlTok)
      (some (Spanned.mk (Tok.punct Punct.DashDashHash) (Span.mk 11 14))) [eofTok]
    = (some (Span.mk 11 14), some eofTok, none, []) := by
    rw [elisionLoop.eq_def]
    simp only [nlTok, eofTok, nextTok]
    norm_num
    rw [elisionLoop.eq_def]
    simp
  have h2 : _read examplePeekBad = some (some (Span.mk 11 14), eofTok,
      { examplePeekBad with elided_newline := none, lookahead := none,
                            lookahead2 := none, iter := [] }) := by
    unfold _read
    have htb : takeBuffered examplePeekBad = (some nlTok,
        some (Spanned.mk (Tok.punct Punct.DashDashHash) (Span.mk 11 14)), [eofTok]) := rfl
    rw [show examplePeekBad.ignore_after_newline = some Punct.DashDashHash from rfl, htb]
    dsimp only
    rw [show examplePeekBad.elided_newline = none from rfl, h1]
    rfl
  refine ⟨rfl, ?_, by decide⟩
  unfold ParserState.read
  rw [h2]
  exact ⟨_, _, rfl⟩

/-- Type kinds (`ast::K`); only the constructors this development manipulates
are modelled (the full enumeration is listed in spec §3). -/
inductive K where
  | Oops : K
  | IntegerLit : Int → K
  | StringLit : Name → K
deriving DecidableEq, Repr

/-- Expressions (`ast::Ex`); only the constructors this development
manipulates are modelled. -/
inductive Ex where
  | Oops : Ex
  | Var : NameRef → Ex
deriving DecidableEq, Repr

/-- Statements (`ast::St`); only the constructors this development manipulates
are modelled.  `Local` carries the declared scoped ids, the right-hand-side
expressions and the new sibling scope (the spans and inline type specs of the
Rust node are out of scope for the claims proved here). -/
inductive St where
  | Oops : St
  | Local : List ScopedId → List Ex → Scope → St
deriving DecidableEq, Repr

/-- The `Recover` trait (parser.rs lines 151-197): the dummy value substituted
for a recoverable failure; each AST sum recovers to its `Oops` node. -/
class RecoverDefault (α : Type) where
  recover : α

instance : RecoverDefault K := ⟨K.Oops⟩

instance : RecoverDefault Ex := ⟨Ex.Oops⟩

instance : RecoverDefault St := ⟨St.Oops⟩

/-- `Parser::recover` (parser.rs lines 744-748): `recover_with` with the
`Recover` trait's dummy. -/
def recover {α : Type} [RecoverDefault α] (depth : Nat) (ret : Except Stop α)
    (s : ParserState) : Option (Except Stop α × ParserState) :=
  recover_with depth ret s RecoverDefault.recover

/-- The state after exactly `n` successful reads. -/
def readSeq : Nat → ParserState → Option ParserState
  | 0, s => some s
  | n+1, s =>
    match s.read with
    | none => none
    | some (_, _, s') => readSeq n s'

theorem recoverSkipFuel_spec (depth : Nat) :
    ∀ (fuel : Nat) (s : ParserState) (skipped : List ((Side × Spanned Tok) × Nat))
      (side : Side) (t : Spanned Tok) (lastMin : Nat) (s1 : ParserState),
      recoverSkipFuel depth fuel s = some (skipped, (side, t), lastMin, s1) →
      (∀ p ∈ skipped, depth ≤ p.2) ∧ lastMin < depth ∧
      lastMin = s1.open_nestings.length - side.nesting_delta.added ∧
      side.nesting_delta.added ≤ s1.open_nestings.length ∧
      (s1.lookahead = none ∨ s1.lookahead2 = none) ∧
      readSeq (skipped.length + 1) s = some s1 := by
  intro fuel
  induction fuel with
  | zero => intro s skipped side t lastMin s1 h; exact absurd h (by simp [recoverSkipFuel])
  | succ fuel ih =>
    intro s skipped side t lastMin s1 h
    unfold recoverSkipFuel at h
    cases hrd : s.read with
    | none => rw [hrd] at h; exact absurd h (by simp)
    | some r =>
      obtain ⟨side0, t0, s'⟩ := r
      rw [hrd] at h
      dsimp only at h
      obtain ⟨g1, g2, g3, g4, g5, g6, g7, g8, g9⟩ := read_fields s side0 t0 s' hrd
      by_cases hmin : s'.open_nestings.length - side0.nesting_delta.added < depth
      · rw [if_pos hmin] at h
        simp only [Option.some.injEq, Prod.mk.injEq] at h
        obtain ⟨hsk, ⟨hside, ht⟩, hlm, hs1⟩ := h
        subst hsk hside ht hlm hs1
        refine ⟨by simp, hmin, rfl, ?_, g7, ?_⟩
        · rw [g1, g2]
          exact update_nestings_added_le _ _ _
        · unfold readSeq
          rw [hrd]
          rfl
      · rw [if_neg hmin] at h
        cases hrec : recoverSkipFuel depth fuel s' with
        | none => rw [hrec] at h; exact absurd h (by simp)
        | some r2 =>
          obtain ⟨skipped2, last2, lastMin2, s2⟩ := r2
          rw [hrec] at h
          simp only [Option.some.injEq, Prod.mk.injEq] at h
          obtain ⟨hsk, hlast, hlm, hs1⟩ := h
          subst hlast hlm hs1 hsk
          obtain ⟨p1, p2, p3, p4, p5, p6⟩ := ih s' skipped2 side t _ _ hrec
          refine ⟨?_, p2, p3, p4, p5, ?_⟩
          · intro p hp
            rcases List.mem_cons.mp hp with hp | hp
            · subst hp
              exact Nat.le_of_not_lt hmin
            · exact p1 p hp
          · simp only [List.length_cons]
            unfold readSeq
            rw [hrd]
            exact p6

/-- C1 (amended): on a recoverable failure inside a recover-to-delimiter
region entered at nesting depth `depth` (current depth still at least
`depth`), the recovery engine skips tokens until the nesting depth at some
instant during or after the last read falls strictly below `depth` — every
earlier skipped read kept its minimum instantaneous depth at least `depth`,
and exactly `skipped + 1` reads are performed, no token beyond the last one —
substitutes the dummy `Oops` node as the result of the wrapper, and pushes
the last token back exactly when unreading was requested (recover-up-to
variant), or the depth after that token ended up MORE THAN ONE BELOW the
entry depth (not: the token closed more than one nesting), or that token
also opened a new nesting. -/
theorem recover_retry_amended (au : Bool) (depth : Nat) (s : ParserState)
    (skipped : List ((Side × Spanned Tok) × Nat)) (side : Side)
    (t : Spanned Tok) (lastMin : Nat) (s1 : ParserState)
    (hdep : depth ≤ s.open_nestings.length)
    (hskip : recoverSkipFuel depth (avail s + 1) s
      = some (skipped, (side, t), lastMin, s1)) :
    (∀ p ∈ skipped, depth ≤ p.2) ∧
    lastMin < depth ∧
    lastMin = s1.open_nestings.length - side.nesting_delta.added ∧
    readSeq (skipped.length + 1) s = some s1 ∧
    ((au = true ∨ s1.open_nestings.length + 1 < depth ∨
        0 < side.nesting_delta.added) →
      ∃ s2, unread side t s1 = some s2 ∧
        recoverOnError au depth s = some (true, s2)) ∧
    (¬(au = true ∨ s1.open_nestings.length + 1 < depth ∨
        0 < side.nesting_delta.added) →
      recoverOnError au depth s = some (false, s1)) ∧
    (∀ b sr, recoverOnError false depth s = some (b, sr) →
      recover depth (Except.error Stop.Recover) s = some (Except.ok St.Oops, sr)) := by
  obtain ⟨p1, p2, p3, p4, p5, p6⟩ := recoverSkipFuel_spec depth (avail s + 1) s
    skipped side t lastMin s1 hskip
  have hcond : (au || decide (1 < depth - s1.open_nestings.length) ||
      decide (s1.open_nestings.length - side.nesting_delta.added
        < s1.open_nestings.length)) = true
      ↔ (au = true ∨ s1.open_nestings.length + 1 < depth ∨
          0 < side.nesting_delta.added) := by
    simp only [Bool.or_eq_true, decide_eq_true_eq]
    constructor
    · rintro ((h | h) | h)
      · exact Or.inl h
      · exact Or.inr (Or.inl (by omega))
      · exact Or.inr (Or.inr (by omega))
    · rintro (h | h | h)
      · exact Or.inl (Or.inl h)
      · exact Or.inl (Or.inr (by omega))
      · exact Or.inr (by omega)
  have hfalse : ∀ cond : Bool, cond = false → ∀ x y : Option (Bool × ParserState),
      (if cond = true then x else y) = y := by
    intro cond hc x y
    rw [hc]
    simp
  refine ⟨p1, p2, p3, p6, ?_, ?_, ?_⟩
  · intro hor
    have hb := hcond.mpr hor
    have hguard : (s1.lookahead.isSome && s1.lookahead2.isSome) = false := by
      rcases p5 with p5 | p5 <;> simp [p5]
    have hun : ∃ s2, unread side t s1 = some s2 := by
      unfold unread _unread
      rw [hguard]
      simp only [Bool.false_eq_true, if_false]
      cases side.elided_tokens with
      | some sp => exact ⟨_, rfl⟩
      | none => exact ⟨_, rfl⟩
    obtain ⟨s2, hs2⟩ := hun
    refine ⟨s2, hs2, ?_⟩
    unfold recoverOnError
    rw [if_pos hdep, hskip]
    dsimp only
    rw [hb, hs2]
    rfl
  · intro hor
    have hb : (au || decide (1 < depth - s1.open_nestings.length) ||
        decide (s1.open_nestings.length - side.nesting_delta.added
          < s1.open_nestings.length)) = false := by
      rcases hbc : (au || decide (1 < depth - s1.open_nestings.length) ||
        decide (s1.open_nestings.length - side.nesting_delta.added
          < s1.open_nestings.length)) with _ | _
      · rfl
      · exact absurd (hcond.mp hbc) hor
    unfold recoverOnError
    rw [if_pos hdep, hskip]
    dsimp only
    rw [hb]
    simp
  · intro b sr hro
    unfold recover recover_with recover_retry
    rw [hro]
    rfl

/-- A left parenthesis read while skipping during recovery. -/
def lpTok : Spanned Tok := Spanned.mk (Tok.punct Punct.LParen) (Span.mk 2 3)

/-- The `end` keyword that closes both the stray `Paren` and the `End`. -/
def endTok : Spanned Tok := Spanned.mk (Tok.keyword Keyword.End) (Span.mk 4 7)

/-- A parser state at a recoverable failure inside a region entered at depth 2
(stack `Top, End` bottom-to-top), with `( end` still pending. -/
def exRecoverState : ParserState :=
  { iter := [lpTok, endTok],
    elided_newline := none,
    lookahead := none,
    lookahead2 := none,
    last_span := Span.mk 0 1,
    last_span2 := Span.dummy,
    ignore_after_newline := none,
    open_nestings := [Nesting.End, Nesting.Top],
    scope_map := ScopeMap.new,
    global_scope := [],
    scope_stack := [] }

/-- The state after the recovery consumed `(` and `end`. -/
def exRecoverEnd : ParserState :=
  { exRecoverState with iter := [], last_span := Span.mk 4 7,
                        last_span2 := Span.mk 2 3,
                        open_nestings := [Nesting.Top] }

/-- The side information of the final `end` read during that recovery. -/
def exSideEnd : Side :=
  { elided_tokens := none,
    nesting_delta := { removed := [Nesting.End, Nesting.Paren], added := 0 } }

/-- C1 counterexample: entering recovery at depth 2 with `( end` pending, the
final `end` token closes TWO nestings (its delta removes `End` and the
pre-closed `Paren`), yet the engine consumes it rather than pushing it back
(result flag `false`, the token stream fully drained): the depth fell exactly
one below the entry depth, so the code's `depth - cur_depth > 1` test does not
fire even though the token closed more than one nesting. -/
theorem recover_retry_counterexample :
    recoverOnError false 2 exRecoverState = some (false, exRecoverEnd) ∧
    recoverSkipFuel 2 (avail exRecoverState + 1) exRecoverState
      = some ([((Side.mk none (NestingDelta.mk [] 1), lpTok), 2)],
              (exSideEnd, endTok), 1, exRecoverEnd) ∧
    exSideEnd.nesting_delta.removed.length = 2 ∧
    exRecoverEnd.iter = [] ∧ exRecoverEnd.lookahead = none := by
  refine ⟨rfl, rfl, rfl, rfl, rfl⟩

theorem recover_retry_amended_witness :
    (∀ p ∈ [((Side.mk none (NestingDelta.mk [] 1), lpTok), 2)], 2 ≤ p.2) ∧
    (1 : Nat) < 2 ∧
    (1 : Nat) = exRecoverEnd.open_nestings.length - exSideEnd.nesting_delta.added ∧
    readSeq 2 exRecoverState = some exRecoverEnd ∧
    ((false = true ∨ exRecoverEnd.open_nestings.length + 1 < 2 ∨
        0 < exSideEnd.nesting_delta.added) →
      ∃ s2, unread exSideEnd endTok exRecoverEnd = some s2 ∧
        recoverOnError false 2 exRecoverState = some (true, s2)) ∧
    (¬(false = true ∨ exRecoverEnd.open_nestings.length + 1 < 2 ∨
        0 < exSideEnd.nesting_delta.added) →
      recoverOnError false 2 exRecoverState = some (false, exRecoverEnd)) ∧
    (∀ b sr, recoverOnError false 2 exRecoverState = some (b, sr) →
      recover 2 (Except.error Stop.Recover) exRecoverState
        = some (Except.ok St.Oops, sr)) :=
  recover_retry_amended false 2 exRecoverState
    [((Side.mk none (NestingDelta.mk [] 1), lpTok), 2)]
    exSideEnd endTok 1 exRecoverEnd (by decide) rfl

/-- C8 (amended): once the finite token iterator is exhausted the buffer keeps
returning EOF and is never advanced past it: (1) a read at a state holding EOF
with an empty iterator returns the EOF without advancing, and unreading it
puts the EOF back so the next read returns it again; (2) meta-comment
skipping unreads an EOF instead of consuming it; (3) the recovery engine
unreads the EOF whenever MORE THAN ONE NESTING WAS OPEN AT THE REGION'S ENTRY
(entry depth at least 2; the claim's "when EOF would close more than one
nesting" fails at entry depth 1, see the counterexample). -/
theorem eof_read_unread_amended :
    (∀ (s : ParserState) (t : Spanned Tok), s.iter = [] → s.lookahead = some t →
      t.base = Tok.EOF → s.lookahead2 = none →
      (s.ignore_after_newline = none → s.elided_newline = none) →
      ∃ side s1, s.read = some (side, t, s1) ∧ s1.iter = [] ∧
        ∃ s2, unread side t s1 = some s2 ∧ s2.lookahead = some t ∧ s2.iter = []) ∧
    (∀ (meta : Punct) (s : ParserState) (side : Side) (t : Spanned Tok)
        (s1 : ParserState),
      s.ignore_after_newline = some meta → s.read = some (side, t, s1) →
      t.base = Tok.EOF →
      skip_meta_comment meta s = unread side t s1) ∧
    (∀ (depth : Nat) (s : ParserState)
        (skipped : List ((Side × Spanned Tok) × Nat)) (side : Side)
        (t : Spanned Tok) (lastMin : Nat) (s1 : ParserState),
      2 ≤ depth → depth ≤ s.open_nestings.length →
      recoverSkipFuel depth (avail s + 1) s
        = some (skipped, (side, t), lastMin, s1) →
      s1.open_nestings = [] →
      ∃ s2, unread side t s1 = some s2 ∧
        recoverOnError false depth s = some (true, s2)) := by
  refine ⟨?_, ?_, ?_⟩
  · intro s t hiter hla hb hla2 hel
    have hread : ∃ e, _read s = some (e, t,
        { s with elided_newline := none, lookahead := none, lookahead2 := none }) := by
      have htb : takeBuffered s = (some t, s.lookahead2, s.iter) := by
        unfold takeBuffered
        rw [hla]
      unfold _read
      rw [htb]
      cases hign : s.ignore_after_newline with
      | some meta =>
        dsimp only
        rw [elisionLoop.eq_def]
        have : t.base ≠ Tok.punct Punct.Newline := by rw [hb]; decide
        simp [this, hla2]
      | none =>
        rw [hel hign]
        dsimp only
        refine ⟨none, ?_⟩
        rw [hla2]
    obtain ⟨e, hrd⟩ := hread
    refine ⟨⟨e, (update_nestings s.ignore_after_newline.isSome t.base
        s.open_nestings).2⟩,
      { s with elided_newline := none, lookahead := none, lookahead2 := none,
               open_nestings := (update_nestings s.ignore_after_newline.isSome
                 t.base s.open_nestings).1,
               last_span2 := s.last_span, last_span := t.span }, ?_, ?_, ?_⟩
    · unfold ParserState.read
      rw [hrd]
    · simp [hiter]
    · unfold unread _unread
      simp only [Option.isSome_none, Bool.false_and, Bool.false_eq_true, if_false]
      cases he : e with
      | some sp => exact ⟨_, rfl, by simp, by simp [hiter]⟩
      | none => exact ⟨_, rfl, by simp, by simp [hiter]⟩
  · intro meta s side t s1 hign hrd hb
    unfold skip_meta_comment
    rw [if_pos hign]
    show skipMetaFuel (avail s).succ s = unread side t s1
    unfold skipMetaFuel
    rw [hrd]
    dsimp only
    rw [hb]
  · intro depth s skipped side t lastMin s1 hd2 hdep hskip hempty
    obtain ⟨p1, p2, p3, p4, p5, p6⟩ := recoverSkipFuel_spec depth (avail s + 1) s
      skipped side t lastMin s1 hskip
    have hguard : (s1.lookahead.isSome && s1.lookahead2.isSome) = false := by
      rcases p5 with p5 | p5 <;> simp [p5]
    have hun : ∃ s2, unread side t s1 = some s2 := by
      unfold unread _unread
      rw [hguard]
      simp only [Bool.false_eq_true, if_false]
      cases side.elided_tokens with
      | some sp => exact ⟨_, rfl⟩
      | none => exact ⟨_, rfl⟩
    obtain ⟨s2, hs2⟩ := hun
    refine ⟨s2, hs2, ?_⟩
    unfold recoverOnError
    rw [if_pos hdep, hskip]
    dsimp only
    have hcond : (false || decide (1 < depth - s1.open_nestings.length) ||
        decide (s1.open_nestings.length - side.nesting_delta.added
          < s1.open_nestings.length)) = true := by
      rw [hempty]
      simp only [List.length_nil, Nat.sub_zero, Bool.false_or, Bool.or_eq_true,
        decide_eq_true_eq]
      left
      omega
    rw [hcond, hs2]
    rfl

/-- A left parenthesis pending before a premature EOF. -/
def lpTokB : Spanned Tok := Spanned.mk (Tok.punct Punct.LParen) (Span.mk 5 6)

/-- The premature EOF. -/
def eofTokB : Spanned Tok := Spanned.mk Tok.EOF (Span.mk 8 8)

/-- A recoverable failure at entry depth 1 (stack just `Top`), with `(` and
then EOF pending. -/
def exEofRecState : ParserState :=
  { iter := [lpTokB, eofTokB],
    elided_newline := none,
    lookahead := none,
    lookahead2 := none,
    last_span := Span.mk 0 1,
    last_span2 := Span.dummy,
    ignore_after_newline := none,
    open_nestings := [Nesting.Top],
    scope_map := ScopeMap.new,
    global_scope := [],
    scope_stack := [] }

/-- The state after that recovery consumed `(` and the EOF. -/
def exEofRecEnd : ParserState :=
  { exEofRecState with iter := [], last_span := Span.mk 8 8,
                       last_span2 := Span.mk 5 6, open_nestings := [] }

/-- The side information of the EOF read during that recovery. -/
def exEofSide : Side :=
  { elided_tokens := none,
    nesting_delta := { removed := [Nesting.Top, Nesting.Paren], added := 0 } }

/-- C8 counterexample: at recovery entry depth 1 the skipped `(` opens a
nesting and the following EOF closes TWO nestings (its delta removes `Top`
and the pre-closed `Paren`), yet the engine CONSUMES the EOF instead of
unreading it (result flag `false`, iterator drained past the EOF), because
`depth - cur_depth` is only 1 — refuting "the recovery engine (when EOF
would close more than one nesting) ... unread the EOF token instead of
consuming it" as stated. -/
theorem eof_recovery_counterexample :
    recoverOnError false 1 exEofRecState = some (false, exEofRecEnd) ∧
    recoverSkipFuel 1 (avail exEofRecState + 1) exEofRecState
      = some ([((Side.mk none (NestingDelta.mk [] 1), lpTokB), 1)],
              (exEofSide, eofTokB), 0, exEofRecEnd) ∧
    exEofSide.nesting_delta.removed.length = 2 ∧
    exEofRecEnd.iter = [] ∧ exEofRecEnd.lookahead = none := by
  refine ⟨rfl, rfl, rfl, rfl, rfl⟩

/-- A state holding only a buffered EOF over an exhausted iterator. -/
def exEofBufState : ParserState :=
  { iter := [],
    elided_newline := none,
    lookahead := some (Spanned.mk Tok.EOF (Span.mk 9 9)),
    lookahead2 := none,
    last_span := Span.mk 0 9,
    last_span2 := Span.dummy,
    ignore_after_newline := none,
    open_nestings := [Nesting.Top],
    scope_map := ScopeMap.new,
    global_scope := [],
    scope_stack := [] }

theorem eof_read_unread_amended_witness :
    ∃ side s1, exEofBufState.read
        = some (side, Spanned.mk Tok.EOF (Span.mk 9 9), s1) ∧ s1.iter = [] ∧
      ∃ s2, unread side (Spanned.mk Tok.EOF (Span.mk 9 9)) s1 = some s2 ∧
        s2.lookahead = some (Spanned.mk Tok.EOF (Span.mk 9 9)) ∧ s2.iter = [] :=
  eof_read_unread_amended.1 exEofBufState (Spanned.mk Tok.EOF (Span.mk 9 9))
    rfl rfl rfl rfl (fun _ => rfl)

/-- The numeric-literal arm of `Parser::try_parse_kailua_atomic_kind_seq`
(parser.rs lines 2481-2484) together with its fall-through: a `Tok::Num(v)`
token read in KIND position is accepted as `K::IntegerLit(v as i32)` exactly
when `i32::MIN as f64 <= v && v <= i32::MAX as f64 && v.floor() == v`;
otherwise control falls through to the final arm (lines 2490-2493), which
unreads the token and reports no kind.  The `f64` payload is its exact
rational value; both bounds are exactly representable doubles, so the
comparisons and `floor` coincide with the rational ones, and `v as i32` is
exact for an integral in-range `v`. -/
def atomicKindOfNum (v : ℚ) : Option K :=
  if -2147483648 ≤ v ∧ v ≤ 2147483647 ∧ (⌊v⌋ : ℚ) = v then
    some (K.IntegerLit ⌊v⌋)
  else none

/-- C9: in KIND position a numeric-literal token with value `v` is accepted
as an integer-literal kind iff `v` is integer-valued and lies within the
32-bit signed range `[-2^31, 2^31 - 1]` (and then the literal is exactly that
integer); otherwise no atomic kind is produced and the token is unread,
restoring it to the lookahead with the nesting stack as before the read. -/
theorem integer_literal_kind_range (v : ℚ) (s : ParserState) (side : Side)
    (sp : Span) (s1 : ParserState)
    (hrd : s.read = some (side, Spanned.mk (Tok.num v) sp, s1)) :
    ((atomicKindOfNum v).isSome ↔
      ∃ n : ℤ, (v : ℚ) = (n : ℚ) ∧ -(2^31) ≤ n ∧ n ≤ 2^31 - 1) ∧
    (∀ k, atomicKindOfNum v = some k →
      k = K.IntegerLit ⌊v⌋ ∧ ((⌊v⌋ : ℤ) : ℚ) = v) ∧
    (atomicKindOfNum v = none →
      ∃ s2, unread side (Spanned.mk (Tok.num v) sp) s1 = some s2 ∧
        s2.lookahead = some (Spanned.mk (Tok.num v) sp) ∧
        s2.open_nestings = s.open_nestings) := by
  refine ⟨?_, ?_, ?_⟩
  · unfold atomicKindOfNum
    by_cases hg : -2147483648 ≤ v ∧ v ≤ 2147483647 ∧ (⌊v⌋ : ℚ) = v
    · rw [if_pos hg]
      simp only [Option.isSome_some, true_iff]
      obtain ⟨h1, h2, h3⟩ := hg
      refine ⟨⌊v⌋, h3.symm, ?_, ?_⟩
      · have h4 : ((-2147483648 : ℤ) : ℚ) ≤ (⌊v⌋ : ℚ) := by
          rw [h3]
          exact_mod_cast h1
        have h5 : (-2147483648 : ℤ) ≤ ⌊v⌋ := by exact_mod_cast h4
        rw [show (-(2^31) : ℤ) = -2147483648 by norm_num]
        exact h5
      · have h4 : ((⌊v⌋ : ℤ) : ℚ) ≤ ((2147483647 : ℤ) : ℚ) := by
          rw [h3]
          exact_mod_cast h2
        have h5 : ⌊v⌋ ≤ (2147483647 : ℤ) := by exact_mod_cast h4
        rw [show ((2:ℤ)^31 - 1) = 2147483647 by norm_num]
        exact h5
    · rw [if_neg hg]
      simp only [Option.isSome_none, Bool.false_eq_true, false_iff]
      rintro ⟨n, hn, hlo, hhi⟩
      norm_num at hlo hhi
      refine hg ⟨?_, ?_, ?_⟩
      · rw [hn]
        exact_mod_cast hlo
      · rw [hn]
        exact_mod_cast hhi
      · rw [hn, Int.floor_intCast]
  · intro k hk
    unfold atomicKindOfNum at hk
    by_cases hg : -2147483648 ≤ v ∧ v ≤ 2147483647 ∧ (⌊v⌋ : ℚ) = v
    · rw [if_pos hg] at hk
      simp only [Option.some.injEq] at hk
      exact ⟨hk.symm, hg.2.2⟩
    · rw [if_neg hg] at hk
      exact absurd hk (by simp)
  · intro hnone
    obtain ⟨f1, f2, _, _, _, _, f7, _, _⟩ := read_fields s side _ s1 hrd
    have hguard : (s1.lookahead.isSome && s1.lookahead2.isSome) = false := by
      rcases f7 with f7 | f7 <;> simp [f7]
    have hrev : revert_nestings side.nesting_delta s1.open_nestings
        = s.open_nestings := by
      rw [f1, f2]
      exact revert_update_nestings _ _ _
    unfold unread _unread
    rw [hguard]
    simp only [Bool.false_eq_true, if_false]
    cases side.elided_tokens with
    | some sp2 => exact ⟨_, rfl, by simp, by simpa using hrev⟩
    | none => exact ⟨_, rfl, by simp, by simpa using hrev⟩

/-- A parser state about to read the numeric literal 5/2 in KIND position. -/
def exampleNumState : ParserState :=
  { iter := [],
    elided_newline := none,
    lookahead := some (Spanned.mk (Tok.num (5/2)) (Span.mk 3 6)),
    lookahead2 := none,
    last_span := Span.mk 0 3,
    last_span2 := Span.dummy,
    ignore_after_newline := none,
    open_nestings := [Nesting.Top],
    scope_map := ScopeMap.new,
    global_scope := [],
    scope_stack := [] }

/-- The state after reading that literal. -/
def exampleNumAfter : ParserState :=
  { exampleNumState with lookahead := none, last_span := Span.mk 3 6,
                         last_span2 := Span.mk 0 3 }

theorem integer_literal_kind_range_witness :
    ((atomicKindOfNum (5/2)).isSome ↔
      ∃ n : ℤ, ((5/2 : ℚ)) = (n : ℚ) ∧ -(2^31) ≤ n ∧ n ≤ 2^31 - 1) ∧
    (∀ k, atomicKindOfNum (5/2) = some k →
      k = K.IntegerLit ⌊(5/2 : ℚ)⌋ ∧ ((⌊(5/2 : ℚ)⌋ : ℤ) : ℚ) = 5/2) ∧
    (atomicKindOfNum (5/2) = none →
      ∃ s2, unread (Side.mk none (NestingDelta.mk [] 0))
          (Spanned.mk (Tok.num (5/2)) (Span.mk 3 6)) exampleNumAfter = some s2 ∧
        s2.lookahead = some (Spanned.mk (Tok.num (5/2)) (Span.mk 3 6)) ∧
        s2.open_nestings = exampleNumState.open_nestings) :=
  integer_literal_kind_range (5/2) exampleNumState
    (Side.mk none (NestingDelta.mk [] 0)) (Span.mk 3 6) exampleNumAfter rfl

/-- `Parser::resolve_name` (parser.rs lines 841-852): look the name up in the
ancestor chain of the current top scope; `Local` on a hit, `Global`
otherwise.  (Rust `scope_stack.last()` is the top; here the head.) -/
def resolve_name (s : ParserState) (name : Name) : NameRef :=
  match s.scope_stack.head? with
  | some sp =>
    match s.scope_map.find_name_in_scope sp.1 name with
    | some r => NameRef.Local r.2
    | none => NameRef.Global name
  | none => NameRef.Global name

/-- `Parser::generate_sibling_scope` (parser.rs lines 854-860): a fresh child
of the current top scope (a fresh root when the scope stack is empty),
WITHOUT pushing it. -/
def generate_sibling_scope (s : ParserState) : Scope × ParserState :=
  match s.scope_stack.head? with
  | some sp =>
    let g := s.scope_map.generate sp.1
    (g.1, { s with scope_map := g.2 })
  | none =>
    let g := s.scope_map.generate_root
    (g.1, { s with scope_map := g.2 })

/-- `Parser::last_pos` (parser.rs lines 764-767); `none` models the assert on
a dummy `last_span`. -/
def last_pos (s : ParserState) : Option Pos :=
  match s.last_span with
  | Span.dummy => none
  | Span.mk _ e => some e

/-- `Parser::push_scope` (parser.rs lines 862-865). -/
def push_scope (scope : Scope) (s : ParserState) : Option ParserState :=
  match last_pos s with
  | none => none
  | some p => some { s with scope_stack := (scope, p) :: s.scope_stack }

/-- The `add_name` loop of the `local NAME` branch (parser.rs lines
1279-1285): add each declared name to the sibling scope, collecting the
scoped ids in order. -/
def addLocalNames (sib : Scope) (acc : List ScopedId × ParserState)
    (ns : List Name) : List ScopedId × ParserState :=
  ns.foldl (fun acc n =>
    ((acc.1 ++ [(ScopeMap.add_name acc.2.scope_map sib n).1]),
     { acc.2 with scope_map := (ScopeMap.add_name acc.2.scope_map sib n).2 })) acc

/-- The scope-level model of the `local NAME [, NAME]* = exps` branch of
`Parser::try_parse_stmt` (parser.rs lines 1246-1296), with token scanning
projected out: `names` are the declared names collected by
`scan_list_with_spec(parse_name)` (no scope operation), `rhsNames` the name
atoms of the right-hand-side expressions, each resolved by
`Parser::resolve_name` at the moment `try_parse_prefix_exp` reads it
(parser.rs line 1724) — before the new scope exists.  Only after the
right-hand side (and the trailing type-spec meta comment, which performs no
scope operation) does the code generate the sibling scope, push it, and add
each declared name to it, in that order. -/
def parse_local_stmt (names rhsNames : List Name) (s : ParserState) :
    Option (St × ParserState) :=
  match push_scope (generate_sibling_scope s).1 (generate_sibling_scope s).2 with
  | none => none
  | some s2 =>
    some (St.Local (addLocalNames (generate_sibling_scope s).1 ([], s2) names).1
        (rhsNames.map (fun n => Ex.Var (resolve_name s n)))
        (generate_sibling_scope s).1,
      (addLocalNames (generate_sibling_scope s).1 ([], s2) names).2)

theorem add_name_lookup_self (m : ScopeMap) (sc : Scope) (n : Name) :
    (m.add_name sc n).2.lookupName sc n = some m.nextId := by
  simp [ScopeMap.add_name, ScopeMap.lookupName, List.find?]

theorem add_name_lookup_mono (m : ScopeMap) (sc sc2 : Scope) (n n2 : Name)
    (id : ScopedId) (h : m.lookupName sc n = some id) :
    ∃ id2, (m.add_name sc2 n2).2.lookupName sc n = some id2 ∧
      (id2 = id ∨ id2 = m.nextId) := by
  by_cases hk : (sc2, n2) = (sc, n)
  · refine ⟨m.nextId, ?_, Or.inr rfl⟩
    simp [ScopeMap.add_name, ScopeMap.lookupName, List.find?, hk]
  · refine ⟨id, ?_, Or.inl rfl⟩
    simp only [ScopeMap.add_name, ScopeMap.lookupName, List.find?] at h ⊢
    rw [show (decide ((sc2, n2) = (sc, n))) = false from decide_eq_false hk]
    simpa using h

theorem addLocalNames_spec (sib : Scope) :
    ∀ (ns : List Name) (acc : List ScopedId × ParserState),
      (∀ n ∈ ns, ∃ id, (addLocalNames sib acc ns).2.scope_map.lookupName sib n
          = some id ∧ acc.2.scope_map.nextId ≤ id) ∧
      acc.2.scope_map.nextId ≤ (addLocalNames sib acc ns).2.scope_map.nextId ∧
      (addLocalNames sib acc ns).2.scope_map.parents = acc.2.scope_map.parents ∧
      (addLocalNames sib acc ns).2.scope_stack = acc.2.scope_stack ∧
      (∀ n id, acc.2.scope_map.lookupName sib n = some id →
        ∃ id2, (addLocalNames sib acc ns).2.scope_map.lookupName sib n = some id2 ∧
          (id2 = id ∨ acc.2.scope_map.nextId ≤ id2)) := by
  intro ns
  induction ns with
  | nil =>
    intro acc
    refine ⟨by simp, le_refl _, rfl, rfl, ?_⟩
    intro n id h
    exact ⟨id, h, Or.inl rfl⟩
  | cons m rest ih =>
    intro acc
    have hstep : addLocalNames sib acc (m :: rest)
        = addLocalNames sib
            ((acc.1 ++ [(ScopeMap.add_name acc.2.scope_map sib m).1]),
             { acc.2 with scope_map := (ScopeMap.add_name acc.2.scope_map sib m).2 })
            rest := rfl
    obtain ⟨q1, q2, q3, q4, q5⟩ := ih
      ((acc.1 ++ [(ScopeMap.add_name acc.2.scope_map sib m).1]),
       { acc.2 with scope_map := (ScopeMap.add_name acc.2.scope_map sib m).2 })
    have hnext2 : (ScopeMap.add_name acc.2.scope_map sib m).2.nextId
        = acc.2.scope_map.nextId + 1 := rfl
    refine ⟨?_, ?_, ?_, ?_, ?_⟩
    · intro n hn
      rcases List.mem_cons.mp hn with hn | hn
      · subst hn
        have hl : (ScopeMap.add_name acc.2.scope_map sib n).2.lookupName sib n
            = some acc.2.scope_map.nextId :=
          add_name_lookup_self acc.2.scope_map sib n
        obtain ⟨id2, hid2, hor⟩ := q5 n acc.2.scope_map.nextId hl
        rw [hstep]
        refine ⟨id2, hid2, ?_⟩
        rcases hor with hor | hor
        · exact le_of_eq hor.symm
        · rw [hnext2] at hor
          omega
      · obtain ⟨id, hid, hge⟩ := q1 n hn
        rw [hstep]
        refine ⟨id, hid, ?_⟩
        rw [hnext2] at hge
        omega
    · rw [hstep]
      refine le_trans ?_ q2
      rw [hnext2]
      exact Nat.le_succ _
    · rw [hstep, q3]
      rfl
    · rw [hstep, q4]
    · intro n id h
      obtain ⟨id2, hid2, hor⟩ := add_name_lookup_mono acc.2.scope_map sib sib n m id h
      obtain ⟨id3, hid3, hor3⟩ := q5 n id2 hid2
      rw [hstep]
      refine ⟨id3, hid3, ?_⟩
      rw [hnext2] at hor3
      rcases hor3 with hor3 | hor3
      · rcases hor with hor | hor
        · exact Or.inl (hor3.trans hor)
        · refine Or.inr (le_of_eq ?_)
          rw [hor3, hor]
      · exact Or.inr (by omega)

theorem get?_append_length {α : Type} (l : List α) (a : α) :
    (l ++ [a]).get? l.length = some a := by
  induction l with
  | nil => rfl
  | cons x xs ih => simpa using ih

theorem generate_sibling_fields (s : ParserState) :
    (generate_sibling_scope s).1 = s.scope_map.parents.length ∧
    (generate_sibling_scope s).2.scope_map.names = s.scope_map.names ∧
    (generate_sibling_scope s).2.scope_map.nextId = s.scope_map.nextId ∧
    (generate_sibling_scope s).2.scope_stack = s.scope_stack ∧
    (generate_sibling_scope s).2.last_span = s.last_span ∧
    (∃ popt, (generate_sibling_scope s).2.scope_map.parents
        = s.scope_map.parents ++ [popt] ∧
      popt = s.scope_stack.head?.map (fun sp => sp.1)) := by
  unfold generate_sibling_scope
  cases hh : s.scope_stack.head? with
  | some sp =>
    exact ⟨rfl, rfl, rfl, rfl, rfl, some sp.1, rfl, by simp⟩
  | none =>
    exact ⟨rfl, rfl, rfl, rfl, rfl, none, rfl, by simp⟩

/-- C6: a `local NAME [, NAME]* = exps` statement resolves every name of its
right-hand side under the ENCLOSING scope (the pre-statement state, so none
of the newly declared names is visible to its own initializer); only after
the right-hand side is parsed is a fresh sibling scope generated — a child of
the current top scope (a root when the scope stack is empty) — the declared
names added to it, and that scope pushed, so that it remains active for the
following statements: each declared name then resolves to a freshly assigned
local scoped id. -/
theorem local_stmt_sibling_scope (names rhsNames : List Name) (s : ParserState)
    (hspan : s.last_span ≠ Span.dummy) :
    ∃ ids pos s',
      parse_local_stmt names rhsNames s
        = some (St.Local ids
            (rhsNames.map (fun n => Ex.Var (resolve_name s n)))
            s.scope_map.parents.length, s') ∧
      s'.scope_map.parentOf s.scope_map.parents.length
        = s.scope_stack.head?.map (fun sp => sp.1) ∧
      s'.scope_stack = (s.scope_map.parents.length, pos) :: s.scope_stack ∧
      (∀ n ∈ names, ∃ id, resolve_name s' n = NameRef.Local id ∧
        s.scope_map.nextId ≤ id) := by
  obtain ⟨g1, g2, g3, g4, g5, popt, g6, g7⟩ := generate_sibling_fields s
  cases hls : s.last_span with
  | dummy => exact absurd hls hspan
  | mk lo hi =>
    have hlp : last_pos (generate_sibling_scope s).2 = some hi := by
      unfold last_pos
      rw [g5, hls]
    have hpush : push_scope (generate_sibling_scope s).1 (generate_sibling_scope s).2
        = some { (generate_sibling_scope s).2 with
                 scope_stack := ((generate_sibling_scope s).1, hi)
                   :: (generate_sibling_scope s).2.scope_stack } := by
      unfold push_scope
      rw [hlp]
    set s2 : ParserState :=
      { (generate_sibling_scope s).2 with
        scope_stack := ((generate_sibling_scope s).1, hi)
          :: (generate_sibling_scope s).2.scope_stack } with hs2
    obtain ⟨q1, q2, q3, q4, q5⟩ :=
      addLocalNames_spec (generate_sibling_scope s).1 names ([], s2)
    have heq : parse_local_stmt names rhsNames s
        = some (St.Local (addLocalNames (generate_sibling_scope s).1 ([], s2) names).1
            (rhsNames.map (fun n => Ex.Var (resolve_name s n)))
            (generate_sibling_scope s).1,
          (addLocalNames (generate_sibling_scope s).1 ([], s2) names).2) := by
      unfold parse_local_stmt
      rw [hpush]
    have hparents : (addLocalNames (generate_sibling_scope s).1 ([], s2) names).2.scope_map.parents
        = s.scope_map.parents ++ [popt] := by
      rw [q3]
      simpa using g6
    have hstack : (addLocalNames (generate_sibling_scope s).1 ([], s2) names).2.scope_stack
        = ((generate_sibling_scope s).1, hi) :: s.scope_stack := by
      rw [q4, hs2]
      simp [g4]
    refine ⟨(addLocalNames (generate_sibling_scope s).1 ([], s2) names).1, hi,
      (addLocalNames (generate_sibling_scope s).1 ([], s2) names).2, ?_, ?_, ?_, ?_⟩
    · rw [heq, g1]
    · unfold ScopeMap.parentOf
      rw [hparents, ← g7]
      rw [show s.scope_map.parents.length = (s.scope_map.parents).length from rfl]
      rw [get?_append_length]
      rfl
    · rw [hstack, g1]
    · intro n hn
      obtain ⟨id, hid, hge⟩ := q1 n hn
      have hge2 : s.scope_map.nextId ≤ id := by
        rw [← g3]
        exact hge
      refine ⟨id, ?_, hge2⟩
      unfold resolve_name
      rw [hstack]
      have hfuel : (addLocalNames (generate_sibling_scope s).1 ([], s2) names).2.scope_map.parents.length
          = s.scope_map.parents.length + 1 := by
        rw [hparents]
        simp
      unfold ScopeMap.find_name_in_scope
      rw [hfuel]
      unfold ScopeMap.findNameFuel
      simp only [List.head?_cons]
      rw [hid]

/-- A parser state (empty scope stack, fresh scope map) about to run a
`local a = a` statement. -/
def exLocalState : ParserState :=
  { iter := [],
    elided_newline := none,
    lookahead := none,
    lookahead2 := none,
    last_span := Span.mk 0 4,
    last_span2 := Span.dummy,
    ignore_after_newline := none,
    open_nestings := [Nesting.Top],
    scope_map := ScopeMap.new,
    global_scope := [],
    scope_stack := [] }

theorem local_stmt_sibling_scope_witness :
    ∃ ids pos s',
      parse_local_stmt ["a"] ["a"] exLocalState
        = some (St.Local ids
            (["a"].map (fun n => Ex.Var (resolve_name exLocalState n)))
            exLocalState.scope_map.parents.length, s') ∧
      s'.scope_map.parentOf exLocalState.scope_map.parents.length
        = exLocalState.scope_stack.head?.map (fun sp => sp.1) ∧
      s'.scope_stack = (exLocalState.scope_map.parents.length, pos)
        :: exLocalState.scope_stack ∧
      (∀ n ∈ ["a"], ∃ id, resolve_name s' n = NameRef.Local id ∧
        exLocalState.scope_map.nextId ≤ id) :=
  local_stmt_sibling_scope ["a"] ["a"] exLocalState (by decide)
